import Mathlib

/-!
# Verification of the rdbms-subsetter referential subsetting engine

A shallow embedding of the core engine of `subsetter.py`:
row values, primary-key tuples, foreign-key parent lookups, the recursive
row-admission procedure `create_row_in`, the write buffer (`pending`/`done`,
`insert_one`, `flush`), the per-table priority queues and `next_row`, the
completeness score, and target sizing (`assign_target`).

Machine conventions: Python ints are `ℤ`/`ℕ`, Python floats are `ℝ`,
fallible code (code paths that raise an uncaught Python exception) returns
`Option`, SQL result sets are lists in result order with `.first()` as
`List.head?`.
-/

namespace Subsetter

/-- SQL column values as seen by the engine.  Values are opaque scalars
(`null`, `int`, `str`) plus Python lists (`arr`, e.g. PostgreSQL arrays) and
Python tuples (`tup`, produced only by list-to-tuple coercion). -/
inductive Value where
  | null : Value
  | int : ℤ → Value
  | str : String → Value
  | arr : List Value → Value
  | tup : List Value → Value
deriving Repr

mutual

/-- Boolean structural equality on values. -/
def Value.beq : Value → Value → Bool
  | .null, .null => true
  | .int m, .int n => m == n
  | .str s, .str t => s == t
  | .arr vs, .arr ws => Value.beqList vs ws
  | .tup vs, .tup ws => Value.beqList vs ws
  | _, _ => false

/-- Elementwise structural equality on lists of values. -/
def Value.beqList : List Value → List Value → Bool
  | [], [] => true
  | v :: vs, w :: ws => Value.beq v w && Value.beqList vs ws
  | _, _ => false

end

mutual

theorem Value.beq_iff : ∀ a b : Value, Value.beq a b = true ↔ a = b
  | .null, b => by cases b <;> simp [Value.beq]
  | .int m, b => by cases b <;> simp [Value.beq]
  | .str s, b => by cases b <;> simp [Value.beq]
  | .arr vs, b => by
      cases b <;> simp [Value.beq]
      exact Value.beqList_iff vs _
  | .tup vs, b => by
      cases b <;> simp [Value.beq]
      exact Value.beqList_iff vs _

theorem Value.beqList_iff : ∀ as bs : List Value, Value.beqList as bs = true ↔ as = bs
  | [], bs => by cases bs <;> simp [Value.beqList]
  | a :: as, bs => by
      cases bs with
      | nil => simp [Value.beqList]
      | cons b bs =>
        simp [Value.beqList, Bool.and_eq_true, Value.beq_iff a b, Value.beqList_iff as bs]

end

instance : DecidableEq Value := fun a b =>
  decidable_of_iff (Value.beq a b = true) (Value.beq_iff a b)

mutual

/-- Python hashability of a value: lists are unhashable, tuples are hashable
iff all their elements are, scalars are hashable. -/
def Value.hashable : Value → Bool
  | .null => true
  | .int _ => true
  | .str _ => true
  | .arr _ => false
  | .tup vs => Value.hashableList vs

/-- Hashability of each element of a list of values. -/
def Value.hashableList : List Value → Bool
  | [] => true
  | v :: vs => v.hashable && Value.hashableList vs

end

mutual

/-- Modelled from the spec: "Lists must be converted recursively to tuples so
the key is hashable" (the source at `subsetter.py:362` has no such
conversion; this definition transcribes the spec's words for comparison). -/
def Value.toHashable : Value → Value
  | .null => .null
  | .int n => .int n
  | .str s => .str s
  | .arr vs => .tup (Value.toHashableList vs)
  | .tup vs => .tup (Value.toHashableList vs)

/-- Recursive list-to-tuple conversion, elementwise. -/
def Value.toHashableList : List Value → List Value
  | [] => []
  | v :: vs => v.toHashable :: Value.toHashableList vs

end

/-- Column names. -/
abbrev ColName := String

/-- Table identifiers (the engine keys tables by (schema, name); the schema
component plays no role in the claims, so a single name stands for the
qualified name). -/
abbrev TableId := String

/-- A row: an ordered mapping from column name to value. -/
abbrev Row := List (ColName × Value)

/-- `row[col]`: value of a column in a row (rows carry all their table's
columns, so the default is never exercised on well-formed data). -/
def rowGet (r : Row) (c : ColName) : Value :=
  match r.find? (fun p => p.1 == c) with
  | some p => p.2
  | none => Value.null

/-- The primary-key tuple of a row: the values of the `pk` columns in `pk`
order (`subsetter.py:362`: `tuple((source_row[key] for key in target.pk))` —
note: no hashability coercion of list values). -/
def pkTuple (r : Row) (pk : List ColName) : List Value :=
  pk.map (rowGet r)

/-- Modelled from the spec: the pk tuple with "lists ... converted
recursively to tuples so the key is hashable". -/
def specPkTuple (r : Row) (pk : List ColName) : List Value :=
  pk.map (fun c => (rowGet r c).toHashable)

/-- A WHERE-clause filter list: each entry `(col, v)` is the SQLAlchemy
condition `table.c[col] == v`, which compiles to `col IS NULL` when `v` is
NULL and to `col = v` otherwise.  In both cases a row satisfies it iff its
`col` value equals `v` (SQL `col = v` with non-null `v` rejects null
columns, which the equality on `Value` also does). -/
def matchesFilters (filters : List (ColName × Value)) (r : Row) : Bool :=
  filters.all (fun f => rowGet r f.1 == f.2)

/-- `SELECT ... WHERE <filters>` over a result set, `.first()`. -/
def selectFirst (rows : List Row) (filters : List (ColName × Value)) : Option Row :=
  (rows.filter (matchesFilters filters)).head?

/-- The filter list built by the parent-lookup loop of `create_row_in`
(`subsetter.py:375-381`): iterate over `(parent_col, child_col)` pairs, add
the filter `parent_col == row[child_col]` unconditionally, and `break` as
soon as a non-NULL child value has been seen. -/
def fkFilters (pairs : List (ColName × ColName)) (row : Row) : List (ColName × Value) :=
  match pairs with
  | [] => []
  | (pc, cc) :: rest =>
    if rowGet row cc = Value.null then (pc, Value.null) :: fkFilters rest row
    else [(pc, rowGet row cc)]

/-- `any_non_null_key_columns` of the same loop: some constrained column of
the row is non-NULL (the loop sets it with `break`; the early exit does not
change the existential). -/
def anyNonNullKeyColumns (pairs : List (ColName × ColName)) (row : Row) : Bool :=
  pairs.any (fun p => !(rowGet row p.2 == Value.null))

/-- Transcribes the claim's reading of the parent lookup: "a NULL value in
any individual constrained column disables that column's equality filter" —
i.e. only the non-NULL columns contribute (equality) filters. -/
def specFkFilters (pairs : List (ColName × ColName)) (row : Row) : List (ColName × Value) :=
  (pairs.filter (fun p => !(rowGet row p.2 == Value.null))).map
    (fun p => (p.1, rowGet row p.2))

/-- A foreign-key edge (also the shape of user-supplied pseudo-fk
constraints): the constrained (child) table, the referred (parent) table,
and the two parallel ordered column lists. -/
structure Fk where
  constrainedTable : TableId
  referredTable : TableId
  referredColumns : List ColName
  constrainedColumns : List ColName
deriving DecidableEq, Repr

/-- Static schema data of one table: primary-key columns (all columns when
the catalog reports no pk), outgoing fk edges, user constraints, and the
inverse child edges. -/
structure TableInfo where
  pk : List ColName
  fks : List Fk
  constraints : List Fk
  childFks : List Fk
deriving Repr

/-- Target-side per-table mutable state. -/
structure TblState where
  required : List (Row × Bool)
  requested : List (Row × Bool)
  pending : List (List Value × Row)
  done : List (List Value)
  nRows : ℕ
deriving DecidableEq, Repr

/-- The empty per-table state (`assign_target`). -/
def TblState.empty : TblState :=
  { required := [], requested := [], pending := [], done := [], nRows := 0 }

/-- The engine's mutable state: the target-side table states and the rows
actually committed to the target database (`pending` rows are buffered in
memory and are NOT visible to target-side SELECTs until flushed). -/
structure EngineState where
  tbl : TableId → TblState
  targetRows : TableId → List Row

/-- Static run context: the schema, the source database contents, and the
relevant command-line arguments. -/
structure Env where
  schema : TableId → TableInfo
  sourceRows : TableId → List Row
  buffer : ℕ
  children : ℕ

/-- Update the state of one table. -/
def updateTbl (t : TableId) (f : TblState → TblState) (st : EngineState) : EngineState :=
  { st with tbl := fun u => if u = t then f (st.tbl u) else st.tbl u }

/-- Python dict assignment `pending[pks] = row`: replace the binding in
place if the key is present, else append it. -/
def upsert (k : List Value) (v : Row) : List (List Value × Row) → List (List Value × Row)
  | [] => [(k, v)]
  | (k', v') :: rest => if k' = k then (k, v) :: rest else (k', v') :: upsert k v rest

/-- Python set add `done.add(pk)`. -/
def addDone (d : List (List Value)) (k : List Value) : List (List Value) :=
  if k ∈ d then d else d ++ [k]

/-- Python set union `done.union(pending.keys())`. -/
def unionDone (d : List (List Value)) (ks : List (List Value)) : List (List Value) :=
  ks.foldl addDone d

/-- `insert_one` (`subsetter.py:449-451`): execute the INSERT on the target
connection, then add the pk to `done`. -/
def insertOne (target : TableId) (pks : List Value) (row : Row) (st : EngineState) : EngineState :=
  let st :=
    { st with targetRows := fun u =>
        if u = target then st.targetRows u ++ [row] else st.targetRows u }
  updateTbl target (fun ts => { ts with done := addDone ts.done pks }) st

/-- The commit step of `create_row_in` (`subsetter.py:412-418`): increment
`n_rows`; with `--buffer 0` insert at once, otherwise buffer `pks → row` in
`pending`. -/
def commitRow (env : Env) (target : TableId) (pks : List Value) (row : Row)
    (st : EngineState) : EngineState :=
  let st := updateTbl target (fun ts => { ts with nRows := ts.nRows + 1 }) st
  if env.buffer = 0 then insertOne target pks row st
  else updateTbl target (fun ts => { ts with pending := upsert pks row ts.pending }) st

/-- Trace of committed admissions `(table, pk)` in execution order. -/
abbrev Trace := List (TableId × List Value)

/-- One parent-edge pass of `create_row_in` (`subsetter.py:370-410`),
abstracted over the recursive call (`recurse` is the non-prioritized
recursive `create_row_in` at the referred table).  For each edge, unless
every constrained value is NULL, look the parent up in the target by the
accumulated filters; if absent, fetch it from the source and recursively
admit it.  For real fks (`skipMissingSource = false`) a parent absent from
the source is passed as `None` to `create_row_in`, which raises
(`source_row[key]` on `None`); for user constraints
(`skipMissingSource = true`, `subsetter.py:408`) it is silently skipped. -/
def processEdges (recurse : Row → TableId → EngineState → Option (EngineState × Trace))
    (sourceRows : TableId → List Row) (skipMissingSource : Bool) :
    List Fk → Row → EngineState → Option (EngineState × Trace)
  | [], _, st => some (st, [])
  | fk :: rest, row, st =>
    let pairs := fk.referredColumns.zip fk.constrainedColumns
    if anyNonNullKeyColumns pairs row then
      let filters := fkFilters pairs row
      match selectFirst (st.targetRows fk.referredTable) filters with
      | some _ => processEdges recurse sourceRows skipMissingSource rest row st
      | none =>
        match selectFirst (sourceRows fk.referredTable) filters with
        | some parentRow =>
          match recurse parentRow fk.referredTable st with
          | some (st', tr1) =>
            match processEdges recurse sourceRows skipMissingSource rest row st' with
            | some (st'', tr2) => some (st'', tr1 ++ tr2)
            | none => none
          | none => none
        | none =>
          if skipMissingSource then processEdges recurse sourceRows skipMissingSource rest row st
          else none
    else processEdges recurse sourceRows skipMissingSource rest row st

/-- Child-row candidate pull for one inverse edge (`subsetter.py:425-441`):
SELECT the child rows of the just-admitted row from the source (all
constrained columns filtered, no early exit here), LIMIT `--children` when
not prioritized, then enqueue: prioritized rows are appended to the child's
`required` queue; otherwise the first row is prepended to `requested` and
the rest appended. -/
def enqueueChild (children : ℕ) (sourceRows : TableId → List Row) (edge : Fk) (row : Row)
    (prioritized : Bool) (st : EngineState) : EngineState :=
  let filters := (edge.constrainedColumns.zip edge.referredColumns).map
      (fun p => (p.1, rowGet row p.2))
  let rows := (sourceRows edge.constrainedTable).filter (matchesFilters filters)
  let rows := if prioritized then rows else rows.take children
  if prioritized then
    updateTbl edge.constrainedTable
      (fun ts => { ts with required := ts.required ++ rows.map (fun r => (r, prioritized)) }) st
  else
    match rows with
    | [] => st
    | r0 :: rest =>
      updateTbl edge.constrainedTable
        (fun ts => { ts with
          requested := (r0, prioritized) :: ts.requested ++ rest.map (fun r => (r, prioritized)) }) st

/-- All inverse edges of the target, in order. -/
def processChildFks (env : Env) (edges : List Fk) (row : Row) (prioritized : Bool)
    (st : EngineState) : EngineState :=
  edges.foldl (fun s e => enqueueChild env.children env.sourceRows e row prioritized s) st

/-- `Db.create_row_in` (`subsetter.py:358-441`), with a recursion-depth fuel
(`none` models an uncaught Python exception, including `RecursionError` at
fuel 0).  Steps: compute the pk tuple (hashing it for the membership tests
raises on an unhashable list value); return silently when the row exists and
the call is not prioritized; otherwise, for a new row, satisfy all fk and
constraint parents, then commit; finally enqueue child candidates. -/
def createRowIn (env : Env) : ℕ → Row → TableId → Bool → EngineState →
    Option (EngineState × Trace)
  | 0, _, _, _, _ => none
  | Nat.succ fuel, sourceRow, target, prioritized, st =>
    let info := env.schema target
    let pks := pkTuple sourceRow info.pk
    if !Value.hashableList pks then none
    else
      let tst := st.tbl target
      let rowExists : Prop := pks ∈ tst.pending.map Prod.fst ∨ pks ∈ tst.done
      if rowExists ∧ prioritized = false then some (st, [])
      else
        let committed : Option (EngineState × Trace) :=
          if ¬rowExists then
            match processEdges (fun r t s => createRowIn env fuel r t false s)
                env.sourceRows false info.fks sourceRow st with
            | none => none
            | some (st1, tr1) =>
              match processEdges (fun r t s => createRowIn env fuel r t false s)
                  env.sourceRows true info.constraints sourceRow st1 with
              | none => none
              | some (st2, tr2) =>
                some (commitRow env target pks sourceRow st2, tr1 ++ tr2 ++ [(target, pks)])
          else some (st, [])
        match committed with
        | none => none
        | some (st', tr) => some (processChildFks env info.childFks sourceRow prioritized st', tr)

/-- `TableHelper.next_row` (`subsetter.py:155-170`): pop the front of
`required` (entries enqueued with their prioritized flag), else the front of
`requested`, else pull from the random sampler stream (not prioritized);
`(None, None)` — here `none` — when everything is exhausted.  `stream` is
the current random-sample stream of the source table; it raises
`StopIteration` (runs out) exactly when it is empty. -/
def nextRow (ts : TblState) (stream : List Row) :
    Option (Row × Bool) × TblState × List Row :=
  match ts.required with
  | e :: rest => (some e, { ts with required := rest }, stream)
  | [] =>
    match ts.requested with
    | e :: rest => (some e, { ts with requested := rest }, stream)
    | [] =>
      match stream with
      | r :: rest => (some (r, false), ts, rest)
      | [] => (none, ts, [])

/-- The target-selection pop loop of `create_subset_in`
(`subsetter.py:497-502`): pop the first (lowest-score) table whose source
has rows; `none` (IndexError → break) when the sorted list runs out.
`sourceNRows t` is the source row-count of `t`'s source table. -/
def selectTarget (sourceNRows : TableId → ℕ) : List TableId → Option TableId
  | [] => none
  | t :: rest => if sourceNRows t = 0 then selectTarget sourceNRows rest else some t

/-- Outcome of one pass of the scheduler's admission step. -/
inductive AdmitResult where
  | ok : EngineState → List Row → AdmitResult
  | loopBreak : AdmitResult
  | raised : AdmitResult

/-- `true` iff the step ended in an uncaught exception. -/
def AdmitResult.isRaised : AdmitResult → Bool
  | .raised => true
  | _ => false

/-- `true` iff the step broke out of the scheduler loop. -/
def AdmitResult.isBreak : AdmitResult → Bool
  | .loopBreak => true
  | _ => false

/-- Lines 512-516 of `create_subset_in`: pull `(source_row, prioritized)`
from `next_row` and pass them to `create_row_in` unconditionally — there is
no sentinel check, so the sentinel `(None, None)` reaches `create_row_in`,
whose very first row access (`source_row[key]`, tables have at least one pk
column) raises a `TypeError`. -/
def admitStep (env : Env) (fuel : ℕ) (target : TableId) (stream : List Row)
    (st : EngineState) : AdmitResult :=
  let (res, ts', stream') := nextRow (st.tbl target) stream
  let st := updateTbl target (fun _ => ts') st
  match res with
  | none => AdmitResult.raised
  | some (row, prioritized) =>
    match createRowIn env fuel row target prioritized st with
    | some (st', _) => AdmitResult.ok st' stream'
    | none => AdmitResult.raised

/-- Modelled from the spec: "Call `next_row` on the source.  If it returns
the no-row sentinel, terminate" — the claimed loop step, which breaks out of
the scheduler loop on the sentinel instead of admitting it (this step is
absent from the source; `subsetter.py:512-516` has no sentinel check). -/
def specAdmitStep (env : Env) (fuel : ℕ) (target : TableId) (stream : List Row)
    (st : EngineState) : AdmitResult :=
  let (res, ts', stream') := nextRow (st.tbl target) stream
  let st := updateTbl target (fun _ => ts') st
  match res with
  | none => AdmitResult.loopBreak
  | some (row, prioritized) =>
    match createRowIn env fuel row target prioritized st with
    | some (st', _) => AdmitResult.ok st' stream'
    | none => AdmitResult.raised

/-- Which rows a table's flush actually INSERTs (`subsetter.py:457-471`):
the whole buffer as one batch when the batch insert succeeds; otherwise the
per-row fallback inserts each buffered row individually, logging and
skipping the failures.  `batchOk`/`rowOk` are the outcome oracles of the
target database (duplicate-row races being the known failure case). -/
structure FlushOracle where
  batchOk : TableId → Bool
  rowOk : TableId → Row → Bool

/-- One table's flush (`Db.flush` loop body, `subsetter.py:454-473`): a
table with an empty buffer is skipped; otherwise the buffered rows are
inserted (batch, or per-row fallback on batch failure), the buffered pks are
unioned into `done`, and `pending` is cleared.  Returns the new table state
and the new committed target rows. -/
def flushTable (o : FlushOracle) (t : TableId) (ts : TblState) (rows : List Row) :
    TblState × List Row :=
  if ts.pending = [] then (ts, rows)
  else
    let values := ts.pending.map Prod.snd
    let inserted := if o.batchOk t then values else values.filter (o.rowOk t)
    ({ ts with pending := [], done := unionDone ts.done (ts.pending.map Prod.fst) },
     rows ++ inserted)

/-- `Db.flush` over all tables (each table is processed independently). -/
def flush (o : FlushOracle) (st : EngineState) : EngineState :=
  { tbl := fun t => (flushTable o t (st.tbl t) (st.targetRows t)).1,
    targetRows := fun t => (flushTable o t (st.tbl t) (st.targetRows t)).2 }

/-- The post-loop step of `create_subset_in` (`subsetter.py:521-522`):
a final flush whenever `--buffer` is positive. -/
def schedulerEpilogue (o : FlushOracle) (buffer : ℕ) (st : EngineState) : EngineState :=
  if buffer > 0 then flush o st else st

/-- Python `x or 1` on a (non-negative count) float. -/
noncomputable def pyOr1 (x : ℝ) : ℝ :=
  if x = 0 then 1 else x

/-- `TableHelper.completeness_score` (`subsetter.py:190-209`), on the
counts it reads from the table state (queue lengths and row counts are
Python ints, converted to floats by the method). -/
noncomputable def completenessScore (fetchAll : Bool) (requested required nRows nRowsDesired : ℕ) : ℝ :=
  if fetchAll = true ∧ nRows < nRowsDesired then
    1 + pyOr1 nRows - pyOr1 nRowsDesired
  else
    (0 - (requested : ℝ) / pyOr1 nRows - (required : ℝ)) +
      (if required = 0 then ((nRows : ℝ) / pyOr1 nRowsDesired) ^ (0.33 : ℝ) else 0)

/-- Transcribes the claim's score formula, written with `max(·, 1)`. -/
noncomputable def specCompletenessScore (fetchAll : Bool) (requested required nRows nRowsDesired : ℕ) : ℝ :=
  if fetchAll = true ∧ nRows < nRowsDesired then
    1 + max (nRows : ℝ) 1 - max (nRowsDesired : ℝ) 1
  else
    (-((requested : ℝ) / max (nRows : ℝ) 1) - (required : ℝ)) +
      (if required = 0 then ((nRows : ℝ) / max (nRowsDesired : ℝ) 1) ^ (0.33 : ℝ) else 0)

/-- Python `int(x)`: truncation toward zero. -/
noncomputable def pyInt (x : ℝ) : ℤ :=
  if 0 ≤ x then ⌊x⌋ else ⌈x⌉

/-- Python `n or 1` on an int. -/
def pyOr1Int (n : ℤ) : ℤ :=
  if n = 0 then 1 else n

/-- The target-sizing computation of `Db.assign_target`
(`subsetter.py:326-340`): returns `(n_rows_desired, fetch_all)` from
whether the table matches `--full-table`, the `--logarithmic` flag, the
fraction, and the source row count. -/
noncomputable def assignTargetSizing (fullTableMatch logarithmic : Bool) (fraction : ℝ)
    (nRows : ℕ) : ℤ × Bool :=
  if fullTableMatch then ((nRows : ℤ), true)
  else if nRows ≠ 0 then
    if logarithmic then
      (pyOr1Int (pyInt ((10 : ℝ) ^ (Real.logb 10 (nRows : ℝ) * fraction))), false)
    else
      (pyOr1Int (pyInt ((nRows : ℝ) * fraction)), false)
  else ((0 : ℤ), false)

/-- Transcribes the claim's sizing formula, written with `max(1, ⌊·⌋)`. -/
noncomputable def specAssignTargetSizing (fullTableMatch logarithmic : Bool) (fraction : ℝ)
    (nRows : ℕ) : ℤ × Bool :=
  if fullTableMatch then ((nRows : ℤ), true)
  else if nRows = 0 then ((0 : ℤ), false)
  else if logarithmic then
    (max 1 ⌊(10 : ℝ) ^ (Real.logb 10 (nRows : ℝ) * fraction)⌋, false)
  else (max 1 ⌊(nRows : ℝ) * fraction⌋, false)

/-- The pk tuples currently buffered in a table's `pending` dict. -/
def pendingKeys (ts : TblState) : List (List Value) :=
  ts.pending.map Prod.fst

/-- The unique-key invariant of one target table: `pending`'s keys are
distinct, `done`'s elements are distinct, and the two are disjoint — i.e. no
pk tuple appears more than once in `done ∪ pending`. -/
def TblInv (ts : TblState) : Prop :=
  (pendingKeys ts).Nodup ∧ ts.done.Nodup ∧ ∀ k ∈ pendingKeys ts, k ∉ ts.done

/-- The unique-key invariant over every target table. -/
def Inv (st : EngineState) : Prop :=
  ∀ t, TblInv (st.tbl t)

/-- The invariant on the state of a possibly-raising computation (an
exception leaves no state to constrain). -/
def OptInv : Option (EngineState × Trace) → Prop
  | none => True
  | some (st, _) => Inv st

/-! ## Concrete fixtures used by counterexamples and witnesses -/

/-- The all-empty engine state (a fresh target database). -/
def stEmpty : EngineState := { tbl := fun _ => TblState.empty, targetRows := fun _ => [] }

/-- A one-column fk edge from table `child` to table `parent`. -/
def fkChildParent : Fk :=
  { constrainedTable := "child", referredTable := "parent",
    referredColumns := ["pid"], constrainedColumns := ["pid_fk"] }

/-- A two-table schema: `child(id pk, pid_fk → parent.pid)`, `parent(pid pk)`,
with one parent row in the source. -/
def envW : Env :=
  { schema := fun t =>
      if t = "child" then
        { pk := ["id"], fks := [fkChildParent], constraints := [], childFks := [] }
      else { pk := ["pid"], fks := [], constraints := [], childFks := [] },
    sourceRows := fun t => if t = "parent" then [[("pid", Value.int 7)]] else [],
    buffer := 1000, children := 3 }

/-- A `child` source row referring to parent 7. -/
def childRowW : Row := [("id", Value.int 1), ("pid_fk", Value.int 7)]

/-- The `parent` source row with pid 7. -/
def parentRowW : Row := [("pid", Value.int 7)]

/-- A state in which `childRowW`'s pk is already buffered in `child.pending`. -/
def stPendW : EngineState :=
  { tbl := fun t =>
      if t = "child" then { TblState.empty with pending := [([Value.int 1], childRowW)] }
      else TblState.empty,
    targetRows := fun _ => [] }

/-- A two-column fk column pairing for the NULL-filter counterexample. -/
def c1Pairs : List (ColName × ColName) := [("a", "c1"), ("b", "c2")]

/-- A child row whose first constrained column is NULL and second is 5. -/
def c1Row : Row := [("c1", Value.null), ("c2", Value.int 5)]

/-- A candidate parent row: non-NULL in column `a`, matching 5 in `b`. -/
def c1Parent : Row := [("a", Value.int 1), ("b", Value.int 5)]

/-- The pk columns of the `moody_cat` test table (no declared primary key,
so all columns form the effective key — `subsetter.py:291-294`). -/
def moodyPk : List ColName := ["name", "current_mood", "possible_moods"]

/-- A `moody_cat` source row from the repository's own pg-types test
fixture: its `possible_moods` column is an array value. -/
def moodyRow : Row :=
  [("name", Value.str "Buzz"), ("current_mood", Value.str "hungry"),
   ("possible_moods", Value.arr [Value.str "hungry", Value.str "grumpy"])]

/-- A one-table schema holding only `moody_cat`. -/
def moodyEnv : Env :=
  { schema := fun _ => { pk := moodyPk, fks := [], constraints := [], childFks := [] },
    sourceRows := fun _ => [], buffer := 1000, children := 3 }

/-- A flush oracle on which the batch insert and every per-row insert fail. -/
def oracleFailW : FlushOracle := { batchOk := fun _ => false, rowOk := fun _ _ => false }

/-- A table state with one buffered row. -/
def tsPendW : TblState := { TblState.empty with pending := [([Value.int 1], childRowW)] }

/-! ## Arithmetic helper lemmas -/

theorem pyOr1_natCast (n : ℕ) : pyOr1 (n : ℝ) = max (n : ℝ) 1 := by
  unfold pyOr1
  rcases Nat.eq_zero_or_pos n with h | h
  · subst h; simp
  · have h0 : ((n : ℝ) ≠ 0) := by exact_mod_cast Nat.pos_iff_ne_zero.mp h
    have h1 : (1 : ℝ) ≤ (n : ℝ) := by exact_mod_cast h
    rw [if_neg h0, max_eq_left h1]

theorem pyOr1Int_eq_max {m : ℤ} (h : 0 ≤ m) : pyOr1Int m = max 1 m := by
  unfold pyOr1Int
  rcases eq_or_ne m 0 with h0 | h0
  · subst h0; simp
  · have h1 : (1 : ℤ) ≤ m := lt_of_le_of_ne h (Ne.symm h0)
    rw [if_neg h0, max_eq_right h1]

theorem pyInt_eq_floor {x : ℝ} (h : 0 ≤ x) : pyInt x = ⌊x⌋ :=
  if_pos h

/-- C4: `completeness_score` computes exactly the claimed formula: the
fetch-all shortfall branch returns `1 + max(n_rows,1) − max(n_rows_desired,1)`;
otherwise the score is `−(|requested| / max(n_rows,1)) − |required|`, with the
positive progress term `(n_rows / max(n_rows_desired,1)) ^ 0.33` added only
when `required` is empty (so any non-empty `required` queue disqualifies the
table from it). -/
theorem completeness_score_matches_spec
    (fetchAll : Bool) (requested required nRows nRowsDesired : ℕ) :
    completenessScore fetchAll requested required nRows nRowsDesired =
      specCompletenessScore fetchAll requested required nRows nRowsDesired := by
  unfold completenessScore specCompletenessScore
  simp only [pyOr1_natCast, zero_sub, sub_eq_add_neg]
  ring_nf

/-- C5: for every included source table, `n_rows_desired` (and the
`fetch_all` flag) are computed as claimed: `n_rows` with `fetch_all = true`
on a `--full-table` match, `0` for an empty source table, otherwise
`max(1, ⌊10^(log10(n_rows)·fraction)⌋)` with logarithmic sizing and
`max(1, ⌊n_rows·fraction⌋)` with linear sizing; and `fraction = 1.0` with
linear sizing reproduces `n_rows` exactly. -/
theorem target_sizing_matches_spec
    (fullTableMatch logarithmic : Bool) (fraction : ℝ) (nRows : ℕ)
    (hf : 0 ≤ fraction) :
    assignTargetSizing fullTableMatch logarithmic fraction nRows =
      specAssignTargetSizing fullTableMatch logarithmic fraction nRows ∧
    (fullTableMatch = false → logarithmic = false → fraction = 1 →
      (assignTargetSizing fullTableMatch logarithmic fraction nRows).1 = (nRows : ℤ)) := by
  constructor
  · unfold assignTargetSizing specAssignTargetSizing
    cases fullTableMatch with
    | true => simp
    | false =>
      simp only [Bool.false_eq_true, if_false]
      rcases eq_or_ne nRows 0 with h0 | h0
      · subst h0; simp
      · rw [if_pos h0, if_neg h0]
        cases logarithmic with
        | true =>
          have hx : (0 : ℝ) < (10 : ℝ) ^ (Real.logb 10 (nRows : ℝ) * fraction) :=
            Real.rpow_pos_of_pos (by norm_num) _
          rw [if_pos rfl, if_pos rfl, pyInt_eq_floor hx.le,
            pyOr1Int_eq_max (Int.floor_nonneg.mpr hx.le)]
        | false =>
          have hx : (0 : ℝ) ≤ (nRows : ℝ) * fraction :=
            mul_nonneg (Nat.cast_nonneg _) hf
          simp only [Bool.false_eq_true, if_false]
          rw [pyInt_eq_floor hx, pyOr1Int_eq_max (Int.floor_nonneg.mpr hx)]
  · intro hfull hlog hfr
    subst hfull hlog hfr
    unfold assignTargetSizing
    rcases eq_or_ne nRows 0 with h0 | h0
    · subst h0; simp
    · have h1 : (1 : ℤ) ≤ (nRows : ℤ) := by exact_mod_cast Nat.one_le_iff_ne_zero.mpr h0
      simp only [Bool.false_eq_true, if_false, if_pos h0, mul_one]
      rw [pyInt_eq_floor (Nat.cast_nonneg _)]
      rw [Int.floor_natCast]
      unfold pyOr1Int
      rw [if_neg (by omega)]

/-- Witness for `target_sizing_matches_spec` at a concrete input. -/
theorem target_sizing_matches_spec_witness :
    (0 : ℝ) ≤ 1 ∧
      (assignTargetSizing false false 1 3 = specAssignTargetSizing false false 1 3 ∧
        (false = false → false = false → (1 : ℝ) = 1 →
          (assignTargetSizing false false 1 3).1 = ((3 : ℕ) : ℤ))) :=
  ⟨by norm_num, target_sizing_matches_spec false false 1 3 (by norm_num)⟩

/-- C6: `next_row` returns, in strict priority order, the front of
`required` (with its stored prioritized flag — entries enqueued into
`required` always carry `true`), else the front of `requested`, else the
next sampler-stream element flagged not prioritized, and the no-row
sentinel when nothing is available. -/
theorem next_row_priority_order :
    (∀ ts stream (e : Row × Bool) rest, ts.required = e :: rest →
      nextRow ts stream = (some e, { ts with required := rest }, stream)) ∧
    (∀ ts stream (e : Row × Bool) rest, ts.required = [] → ts.requested = e :: rest →
      nextRow ts stream = (some e, { ts with requested := rest }, stream)) ∧
    (∀ ts (r : Row) rest, ts.required = [] → ts.requested = [] →
      nextRow ts (r :: rest) = (some (r, false), ts, rest)) ∧
    (∀ ts, ts.required = [] → ts.requested = [] → nextRow ts [] = (none, ts, [])) ∧
    (∀ c srows edge row st u x,
      x ∈ ((enqueueChild c srows edge row true st).tbl u).required →
        x ∈ (st.tbl u).required ∨ x.2 = true) ∧
    (∀ c srows edge row st u x,
      x ∈ ((enqueueChild c srows edge row false st).tbl u).requested →
        x ∈ (st.tbl u).requested ∨ x.2 = false) := by
  refine ⟨?_, ?_, ?_, ?_, ?_, ?_⟩
  · intro ts stream e rest h
    cases ts
    simp_all [nextRow]
  · intro ts stream e rest h1 h2
    cases ts
    simp_all [nextRow]
  · intro ts r rest h1 h2
    cases ts
    simp_all [nextRow]
  · intro ts h1 h2
    cases ts
    simp_all [nextRow]
  · intro c srows edge row st u x hx
    by_cases hu : u = edge.constrainedTable
    · subst hu
      simp [enqueueChild, updateTbl] at hx
      rcases hx with h | h
      · exact Or.inl h
      · obtain ⟨r, -, rfl⟩ := h
        exact Or.inr rfl
    · simp [enqueueChild, updateTbl, hu] at hx
      exact Or.inl hx
  · intro c srows edge row st u x hx
    by_cases hu : u = edge.constrainedTable
    · subst hu
      unfold enqueueChild updateTbl at hx
      simp only [Bool.false_eq_true, if_false] at hx
      split at hx
      · exact Or.inl hx
      · simp at hx
        rcases hx with rfl | h | h
        · exact Or.inr rfl
        · exact Or.inl h
        · obtain ⟨r, -, rfl⟩ := h
          exact Or.inr rfl
    · unfold enqueueChild updateTbl at hx
      simp only [Bool.false_eq_true, if_false] at hx
      split at hx
      · exact Or.inl hx
      · dsimp only at hx
        rw [if_neg hu] at hx
        exact Or.inl hx

/-- Witness for `next_row_priority_order` at concrete queue states. -/
theorem next_row_priority_order_witness :
    nextRow { TblState.empty with required := [(childRowW, true)] } [] =
      (some (childRowW, true), TblState.empty, []) ∧
    nextRow TblState.empty [parentRowW] = (some (parentRowW, false), TblState.empty, []) ∧
    nextRow TblState.empty [] = (none, TblState.empty, []) := by
  refine ⟨?_, ?_, ?_⟩
  · exact next_row_priority_order.1 _ _ _ _ rfl
  · exact next_row_priority_order.2.2.1 _ _ _ rfl rfl
  · exact next_row_priority_order.2.2.2.1 _ rfl rfl

/-- C7 counterexample: at a state whose queues and sampler stream are
exhausted, `next_row` returns the no-row sentinel, and the scheduler loop
body (`subsetter.py:512-516`) does not terminate the loop: it passes the
sentinel straight into `create_row_in`, which raises — contradicting the
claim that the loop terminates without invoking `create_row_in` on the
sentinel. -/
theorem scheduler_sentinel_counterexample :
    (nextRow (stEmpty.tbl "t") []).1 = none ∧
    (admitStep envW 5 "t" [] stEmpty).isRaised = true ∧
    (specAdmitStep envW 5 "t" [] stEmpty).isBreak = true := by
  refine ⟨rfl, rfl, rfl⟩

/-- C7 amended: the loop body contains no sentinel check — whenever
`next_row` returns the sentinel, it is passed to `create_row_in`, which
raises.  (Context making the claim's situation unreachable: the sentinel
occurs only with all queues and the sampler stream exhausted, and the
target-selection loop never picks a table whose source has no rows.) -/
theorem scheduler_sentinel_amended :
    (∀ ts stream, (nextRow ts stream).1 = none →
      ts.required = [] ∧ ts.requested = [] ∧ stream = []) ∧
    (∀ env fuel target stream st, (nextRow (st.tbl target) stream).1 = none →
      admitStep env fuel target stream st = AdmitResult.raised) ∧
    (∀ f l t, selectTarget f l = some t → f t ≠ 0) := by
  refine ⟨?_, ?_, ?_⟩
  · intro ts stream h
    cases hts : ts.required with
    | cons e rest => rw [next_row_priority_order.1 ts stream e rest hts] at h; cases h
    | nil =>
      cases hrq : ts.requested with
      | cons e rest => rw [next_row_priority_order.2.1 ts stream e rest hts hrq] at h; cases h
      | nil =>
        cases stream with
        | cons r rest => rw [next_row_priority_order.2.2.1 ts r rest hts hrq] at h; cases h
        | nil => exact ⟨rfl, rfl, rfl⟩

  · intro env fuel target stream st h
    unfold admitStep
    rcases hnr : nextRow (st.tbl target) stream with ⟨res, ts', str'⟩
    rw [hnr] at h
    simp only at h
    subst h
    simp
  · intro f l
    induction l with
    | nil => intro t h; cases h
    | cons a l ih =>
      intro t h
      by_cases ha : f a = 0
      · rw [selectTarget, if_pos ha] at h
        exact ih t h
      · rw [selectTarget, if_neg ha] at h
        cases h
        exact ha

/-- Witness for `scheduler_sentinel_amended` at concrete inputs. -/
theorem scheduler_sentinel_amended_witness :
    (TblState.empty.required = [] ∧ TblState.empty.requested = [] ∧ ([] : List Row) = []) ∧
    admitStep envW 5 "t" [] stEmpty = AdmitResult.raised ∧
    (fun _ : TableId => 1) "a" ≠ 0 := by
  refine ⟨?_, ?_, ?_⟩
  · exact scheduler_sentinel_amended.1 TblState.empty [] rfl
  · exact scheduler_sentinel_amended.2.1 envW 5 "t" [] stEmpty rfl
  · exact scheduler_sentinel_amended.2.2 (fun _ => 1) ["a"] "a" rfl

/-- C1 counterexample: with constrained columns `(c1, c2) = (NULL, 5)`, a
parent row `(a, b) = (1, 5)` satisfies the claim's filters (the NULL column's
filter "disabled", equality on the non-NULL column) but not the code's
filters (the NULL column compiles to `a IS NULL`, which `a = 1` fails); the
lookup is not skipped (`any_non_null_key_columns` holds), and the code's
SELECT misses a parent the claim's SELECT finds. -/
theorem fk_null_filter_counterexample :
    anyNonNullKeyColumns c1Pairs c1Row = true ∧
    matchesFilters (specFkFilters c1Pairs c1Row) c1Parent = true ∧
    matchesFilters (fkFilters c1Pairs c1Row) c1Parent = false ∧
    selectFirst [c1Parent] (specFkFilters c1Pairs c1Row) = some c1Parent ∧
    selectFirst [c1Parent] (fkFilters c1Pairs c1Row) = none := by
  refine ⟨rfl, rfl, rfl, rfl, rfl⟩

/-- C1 amended: for every fk edge of the target table, (i) the parent
lookup is skipped exactly when every constrained-column value of the source
row is NULL; (ii) otherwise the lookup filters are built in column order
with an early exit — each leading NULL column contributes an `IS NULL`
condition (not a disabled filter), the first non-NULL column contributes its
equality, and all later columns are unconstrained; (iii) when the parent row
is absent from the target, the row fetched from the source by the same
filters is recursively admitted, not prioritized, before the row itself is
committed (the parent's trace precedes the row's own commit entry). -/
theorem fk_parent_lookup_amended :
    (∀ pairs row, anyNonNullKeyColumns pairs row = false ↔
      ∀ p ∈ pairs, rowGet row p.2 = Value.null) ∧
    (∀ recurse srows skip fk rest row st,
      anyNonNullKeyColumns (fk.referredColumns.zip fk.constrainedColumns) row = false →
      processEdges recurse srows skip (fk :: rest) row st =
        processEdges recurse srows skip rest row st) ∧
    (∀ pairs row, fkFilters pairs row =
      (pairs.takeWhile (fun p => rowGet row p.2 == Value.null)).map
          (fun p => (p.1, Value.null)) ++
        (match pairs.dropWhile (fun p => rowGet row p.2 == Value.null) with
          | [] => []
          | p :: _ => [(p.1, rowGet row p.2)])) ∧
    (∀ env fuel row t pr st fk parentRow,
      (env.schema t).fks = [fk] →
      (env.schema t).constraints = [] →
      Value.hashableList (pkTuple row (env.schema t).pk) = true →
      ¬(pkTuple row (env.schema t).pk ∈ (st.tbl t).pending.map Prod.fst ∨
          pkTuple row (env.schema t).pk ∈ (st.tbl t).done) →
      anyNonNullKeyColumns (fk.referredColumns.zip fk.constrainedColumns) row = true →
      selectFirst (st.targetRows fk.referredTable)
          (fkFilters (fk.referredColumns.zip fk.constrainedColumns) row) = none →
      selectFirst (env.sourceRows fk.referredTable)
          (fkFilters (fk.referredColumns.zip fk.constrainedColumns) row) = some parentRow →
      createRowIn env (fuel + 1) row t pr st =
        match createRowIn env fuel parentRow fk.referredTable false st with
        | none => none
        | some (st1, tr1) =>
            some (processChildFks env (env.schema t).childFks row pr
                    (commitRow env t (pkTuple row (env.schema t).pk) row st1),
                  tr1 ++ [(t, pkTuple row (env.schema t).pk)])) := by
  refine ⟨?_, ?_, ?_, ?_⟩
  · intro pairs row
    unfold anyNonNullKeyColumns
    rw [List.any_eq_false]
    constructor
    · intro h p hp
      simpa using h p hp
    · intro h p hp
      simpa using h p hp
  · intro recurse srows skip fk rest row st h
    rw [processEdges, if_neg (by simp [h])]
  · intro pairs row
    induction pairs with
    | nil => rfl
    | cons p rest ih =>
      obtain ⟨pc, cc⟩ := p
      by_cases h : rowGet row cc = Value.null
      · rw [fkFilters, if_pos h, ih]
        simp [List.takeWhile_cons, List.dropWhile_cons, h]
      · rw [fkFilters, if_neg h]
        simp [List.takeWhile_cons, List.dropWhile_cons, h]
  · intro env fuel row t pr st fk parentRow hfks hcons hhash hne hnn hmisst hsrc
    rw [createRowIn]
    simp only [hfks, hcons, hhash, Bool.not_true, Bool.false_eq_true, if_false]
    rw [if_neg (fun hc => hne hc.1), if_pos hne]
    rw [processEdges, if_pos hnn]
    simp only [hmisst, hsrc]
    rcases hrec : createRowIn env fuel parentRow fk.referredTable false st with _ | ⟨st1, tr1⟩
    · simp [hrec, processEdges]
    · simp [hrec, processEdges]

/-- Witness for `fk_parent_lookup_amended`: the skip rule at an all-NULL
edge and the recursive-admission equation in the two-table fixture. -/
theorem fk_parent_lookup_amended_witness :
    (processEdges (fun _ _ s => some (s, [])) (fun _ => []) false
        [fkChildParent] [("pid_fk", Value.null)] stEmpty =
      processEdges (fun _ _ s => some (s, [])) (fun _ => []) false
        [] [("pid_fk", Value.null)] stEmpty) ∧
    (createRowIn envW 2 childRowW "child" false stEmpty =
      match createRowIn envW 1 parentRowW "parent" false stEmpty with
      | none => none
      | some (st1, tr1) =>
          some (processChildFks envW (envW.schema "child").childFks childRowW false
                  (commitRow envW "child" (pkTuple childRowW (envW.schema "child").pk)
                    childRowW st1),
                tr1 ++ [("child", pkTuple childRowW (envW.schema "child").pk)])) := by
  constructor
  · exact fk_parent_lookup_amended.2.1 _ _ _ _ _ _ _ (by decide)
  · exact fk_parent_lookup_amended.2.2.2 envW 1 childRowW "child" false stEmpty
      fkChildParent parentRowW (by decide) (by decide) (by decide) (by decide)
      (by decide) (by decide) (by decide)

/-! ## Structure lemmas for the buffer containers -/

theorem upsert_map_fst (k : List Value) (v : Row) (l : List (List Value × Row)) :
    (upsert k v l).map Prod.fst =
      if k ∈ l.map Prod.fst then l.map Prod.fst else l.map Prod.fst ++ [k] := by
  induction l with
  | nil => simp [upsert]
  | cons p rest ih =>
    obtain ⟨k', v'⟩ := p
    by_cases hk : k' = k
    · subst hk
      simp [upsert]
    · rw [upsert, if_neg hk]
      by_cases hmem : k ∈ rest.map Prod.fst
      · simp [hk, hmem, Ne.symm hk, ih]
      · simp [hk, hmem, Ne.symm hk, ih]

theorem mem_upsert_map_fst {a k : List Value} {v : Row} {l : List (List Value × Row)} :
    a ∈ (upsert k v l).map Prod.fst ↔ a ∈ l.map Prod.fst ∨ a = k := by
  rw [upsert_map_fst]
  by_cases hmem : k ∈ l.map Prod.fst
  · rw [if_pos hmem]
    constructor
    · exact Or.inl
    · rintro (h | rfl)
      · exact h
      · exact hmem
  · rw [if_neg hmem]
    simp

theorem nodup_upsert_map_fst {k : List Value} {v : Row} {l : List (List Value × Row)}
    (h : (l.map Prod.fst).Nodup) : ((upsert k v l).map Prod.fst).Nodup := by
  rw [upsert_map_fst]
  by_cases hmem : k ∈ l.map Prod.fst
  · rwa [if_pos hmem]
  · rw [if_neg hmem]
    simp [List.nodup_append, h, hmem]

theorem mem_addDone {a k : List Value} {d : List (List Value)} :
    a ∈ addDone d k ↔ a ∈ d ∨ a = k := by
  unfold addDone
  by_cases hmem : k ∈ d
  · rw [if_pos hmem]
    constructor
    · exact Or.inl
    · rintro (h | rfl)
      · exact h
      · exact hmem
  · rw [if_neg hmem]
    simp

theorem nodup_addDone {k : List Value} {d : List (List Value)}
    (h : d.Nodup) : (addDone d k).Nodup := by
  unfold addDone
  by_cases hmem : k ∈ d
  · rwa [if_pos hmem]
  · rw [if_neg hmem]
    simp [List.nodup_append, h, hmem]

theorem mem_unionDone {a : List Value} {ks d : List (List Value)} :
    a ∈ unionDone d ks ↔ a ∈ d ∨ a ∈ ks := by
  induction ks generalizing d with
  | nil => simp [unionDone]
  | cons k ks ih =>
    simp only [unionDone, List.foldl_cons] at ih ⊢
    rw [ih, mem_addDone]
    constructor
    · rintro ((h | rfl) | h)
      · exact Or.inl h
      · exact Or.inr (List.mem_cons_self _ _)
      · exact Or.inr (List.mem_cons_of_mem _ h)
    · rintro (h | h)
      · exact Or.inl (Or.inl h)
      · rcases List.mem_cons.mp h with rfl | h
        · exact Or.inl (Or.inr rfl)
        · exact Or.inr h

theorem nodup_unionDone {ks d : List (List Value)} (h : d.Nodup) :
    (unionDone d ks).Nodup := by
  induction ks generalizing d with
  | nil => simpa [unionDone]
  | cons k ks ih =>
    simp only [unionDone, List.foldl_cons] at ih ⊢
    exact ih (nodup_addDone h)

/-! ## Frame lemmas: which parts of the state each operation can touch -/

theorem enqueueChild_frame (c : ℕ) (srows : TableId → List Row) (e : Fk) (row : Row)
    (pr : Bool) (st : EngineState) (u : TableId) :
    ((enqueueChild c srows e row pr st).tbl u).pending = (st.tbl u).pending ∧
    ((enqueueChild c srows e row pr st).tbl u).done = (st.tbl u).done ∧
    (enqueueChild c srows e row pr st).targetRows u = st.targetRows u := by
  unfold enqueueChild updateTbl
  cases pr <;> by_cases hu : u = e.constrainedTable <;>
    simp only [Bool.false_eq_true, if_false, if_true] <;>
    (try split) <;> simp [hu]

theorem processChildFks_frame (env : Env) (edges : List Fk) (row : Row) (pr : Bool)
    (st : EngineState) (u : TableId) :
    ((processChildFks env edges row pr st).tbl u).pending = (st.tbl u).pending ∧
    ((processChildFks env edges row pr st).tbl u).done = (st.tbl u).done ∧
    (processChildFks env edges row pr st).targetRows u = st.targetRows u := by
  induction edges generalizing st with
  | nil => exact ⟨rfl, rfl, rfl⟩
  | cons e rest ih =>
    simp only [processChildFks, List.foldl_cons] at ih ⊢
    have h1 := enqueueChild_frame env.children env.sourceRows e row pr st u
    have h2 := ih (enqueueChild env.children env.sourceRows e row pr st)
    exact ⟨h2.1.trans h1.1, h2.2.1.trans h1.2.1, h2.2.2.trans h1.2.2⟩

theorem commitRow_pending (env : Env) (t : TableId) (pks : List Value) (row : Row)
    (st : EngineState) (u : TableId) :
    ((commitRow env t pks row st).tbl u).pending =
      if u = t ∧ env.buffer ≠ 0 then upsert pks row (st.tbl u).pending
      else (st.tbl u).pending := by
  unfold commitRow insertOne updateTbl
  by_cases hb : env.buffer = 0 <;> by_cases hu : u = t <;> simp [hb, hu]

theorem commitRow_done (env : Env) (t : TableId) (pks : List Value) (row : Row)
    (st : EngineState) (u : TableId) :
    ((commitRow env t pks row st).tbl u).done =
      if u = t ∧ env.buffer = 0 then addDone (st.tbl u).done pks
      else (st.tbl u).done := by
  unfold commitRow insertOne updateTbl
  by_cases hb : env.buffer = 0 <;> by_cases hu : u = t <;> simp [hb, hu]

theorem TblInv_congr {ts ts' : TblState} (hp : ts'.pending = ts.pending)
    (hd : ts'.done = ts.done) (h : TblInv ts) : TblInv ts' := by
  unfold TblInv pendingKeys at h ⊢
  rw [hp, hd]
  exact h

theorem Inv_processChildFks (env : Env) (edges : List Fk) (row : Row) (pr : Bool)
    {s : EngineState} (h : Inv s) : Inv (processChildFks env edges row pr s) :=
  fun t => TblInv_congr (processChildFks_frame env edges row pr s t).1
    (processChildFks_frame env edges row pr s t).2.1 (h t)

/-- Any state-to-state property that is reflexive, transitive, and preserved
by the recursive admission is preserved by the whole parent-edge pass. -/
theorem processEdges_rec_chain
    (recurse : Row → TableId → EngineState → Option (EngineState × Trace))
    (P : EngineState → EngineState → Prop)
    (hrefl : ∀ s, P s s)
    (htrans : ∀ a b c, P a b → P b c → P a c)
    (hrec : ∀ r t s s' tr, recurse r t s = some (s', tr) → P s s') :
    ∀ (edges : List Fk) (srows : TableId → List Row) (skip : Bool) (row : Row)
      (st st' : EngineState) (tr : Trace),
      processEdges recurse srows skip edges row st = some (st', tr) → P st st' := by
  intro edges
  induction edges with
  | nil =>
    intro srows skip row st st' tr hp
    rw [processEdges] at hp
    cases hp
    exact hrefl st
  | cons fk rest ih =>
    intro srows skip row st st' tr hp
    simp only [processEdges] at hp
    split at hp
    · split at hp
      · exact ih _ _ _ _ _ _ hp
      · split at hp
        · split at hp
          · rename_i s1 tr1 hr1
            split at hp
            · rename_i s2 tr2 h2
              cases hp
              exact htrans _ _ _ (hrec _ _ _ _ _ hr1) (ih _ _ _ _ _ _ h2)
            · cases hp
          · cases hp
        · split at hp
          · exact ih _ _ _ _ _ _ hp
          · cases hp
    · exact ih _ _ _ _ _ _ hp

/-- With buffering on, `create_row_in` never touches any table's `done` set
(only `flush` moves pks into `done`). -/
theorem createRowIn_done_frame (env : Env) (hbuf : env.buffer ≠ 0) :
    ∀ (fuel : ℕ) (row : Row) (t : TableId) (pr : Bool) (st st' : EngineState) (tr : Trace),
      createRowIn env fuel row t pr st = some (st', tr) →
      ∀ u, (st'.tbl u).done = (st.tbl u).done := by
  intro fuel
  induction fuel with
  | zero =>
    intro row t pr st st' tr h
    rw [createRowIn] at h
    cases h
  | succ fuel ih =>
    intro row t pr st st' tr h u
    simp only [createRowIn] at h
    split at h
    · cases h
    · split at h
      · cases h
        rfl
      · split at h
        · cases h
        · rename_i st2 tr2 hcom
          cases h
          rw [(processChildFks_frame _ _ _ _ _ _).2.1]
          split at hcom
          · split at hcom
            · cases hcom
            · rename_i st1 tr1 h1
              split at hcom
              · cases hcom
              · rename_i stc trc hc
                cases hcom
                have e1 : ∀ v, (st1.tbl v).done = (st.tbl v).done :=
                  fun v => processEdges_rec_chain _
                    (fun a b => ∀ w, (b.tbl w).done = (a.tbl w).done)
                    (fun _ _ => rfl) (fun _ _ _ hab hbc w => (hbc w).trans (hab w))
                    (fun _ _ _ _ _ hr w => ih _ _ _ _ _ _ hr w)
                    _ _ _ _ _ _ _ h1 v
                have e2 : ∀ v, (stc.tbl v).done = (st1.tbl v).done :=
                  fun v => processEdges_rec_chain _
                    (fun a b => ∀ w, (b.tbl w).done = (a.tbl w).done)
                    (fun _ _ => rfl) (fun _ _ _ hab hbc w => (hbc w).trans (hab w))
                    (fun _ _ _ _ _ hr w => ih _ _ _ _ _ _ hr w)
                    _ _ _ _ _ _ _ hc v
                rw [commitRow_done, if_neg (fun hh => hbuf hh.2), e2, e1]
          · cases hcom
            rfl

/-- With buffering off, `create_row_in` never touches any table's `pending`
buffer (rows are inserted one by one through `insert_one`). -/
theorem createRowIn_pending_frame (env : Env) (hbuf : env.buffer = 0) :
    ∀ (fuel : ℕ) (row : Row) (t : TableId) (pr : Bool) (st st' : EngineState) (tr : Trace),
      createRowIn env fuel row t pr st = some (st', tr) →
      ∀ u, (st'.tbl u).pending = (st.tbl u).pending := by
  intro fuel
  induction fuel with
  | zero =>
    intro row t pr st st' tr h
    rw [createRowIn] at h
    cases h
  | succ fuel ih =>
    intro row t pr st st' tr h u
    simp only [createRowIn] at h
    split at h
    · cases h
    · split at h
      · cases h
        rfl
      · split at h
        · cases h
        · rename_i st2 tr2 hcom
          cases h
          rw [(processChildFks_frame _ _ _ _ _ _).1]
          split at hcom
          · split at hcom
            · cases hcom
            · rename_i st1 tr1 h1
              split at hcom
              · cases hcom
              · rename_i stc trc hc
                cases hcom
                have e1 : ∀ v, (st1.tbl v).pending = (st.tbl v).pending :=
                  fun v => processEdges_rec_chain _
                    (fun a b => ∀ w, (b.tbl w).pending = (a.tbl w).pending)
                    (fun _ _ => rfl) (fun _ _ _ hab hbc w => (hbc w).trans (hab w))
                    (fun _ _ _ _ _ hr w => ih _ _ _ _ _ _ hr w)
                    _ _ _ _ _ _ _ h1 v
                have e2 : ∀ v, (stc.tbl v).pending = (st1.tbl v).pending :=
                  fun v => processEdges_rec_chain _
                    (fun a b => ∀ w, (b.tbl w).pending = (a.tbl w).pending)
                    (fun _ _ => rfl) (fun _ _ _ hab hbc w => (hbc w).trans (hab w))
                    (fun _ _ _ _ _ hr w => ih _ _ _ _ _ _ hr w)
                    _ _ _ _ _ _ _ hc v
                rw [commitRow_pending, if_neg (fun hh => hh.2 hbuf), e2, e1]
          · cases hcom
            rfl

/-- `create_row_in` preserves the unique-key invariant of `done ∪ pending`:
a new row is committed only when its pk is in neither set at entry, recursive
admissions can only extend the buffer of the mode in use, and the Python
dict/set semantics (`pending[pks] = row`, `done.add`) never duplicate keys. -/
theorem createRowIn_inv (env : Env) :
    ∀ (fuel : ℕ) (row : Row) (t : TableId) (pr : Bool) (st st' : EngineState) (tr : Trace),
      Inv st → createRowIn env fuel row t pr st = some (st', tr) → Inv st' := by
  intro fuel
  induction fuel with
  | zero =>
    intro row t pr st st' tr _ h
    rw [createRowIn] at h
    cases h
  | succ fuel ih =>
    intro row t pr st st' tr hinv h
    simp only [createRowIn] at h
    split at h
    · cases h
    · split at h
      · cases h
        exact hinv
      · split at h
        · cases h
        · rename_i st2 tr2 hcom
          cases h
          refine Inv_processChildFks _ _ _ _ ?_
          split at hcom
          · rename_i hnex
            split at hcom
            · cases hcom
            · rename_i st1 tr1 h1
              split at hcom
              · cases hcom
              · rename_i stc trc hc
                cases hcom
                have hinv1 : Inv st1 :=
                  processEdges_rec_chain _ (fun a b => Inv a → Inv b)
                    (fun _ hh => hh) (fun _ _ _ hab hbc hh => hbc (hab hh))
                    (fun _ _ _ _ _ hr hh => ih _ _ _ _ _ _ hh hr)
                    _ _ _ _ _ _ _ h1 hinv
                have hinvc : Inv stc :=
                  processEdges_rec_chain _ (fun a b => Inv a → Inv b)
                    (fun _ hh => hh) (fun _ _ _ hab hbc hh => hbc (hab hh))
                    (fun _ _ _ _ _ hr hh => ih _ _ _ _ _ _ hh hr)
                    _ _ _ _ _ _ _ hc hinv1
                have hpend : pkTuple row (env.schema t).pk ∉
                    ((st.tbl t).pending.map Prod.fst) := fun hm => hnex (Or.inl hm)
                have hdone : pkTuple row (env.schema t).pk ∉ (st.tbl t).done :=
                  fun hm => hnex (Or.inr hm)
                intro u
                by_cases hu : u = t
                · subst hu
                  by_cases hb : env.buffer = 0
                  · -- insert_one path: pending untouched, pk added to done
                    have hpfrz : ∀ v, (stc.tbl v).pending = (st.tbl v).pending := by
                      intro v
                      have ea := createRowIn_pending_frame env hb fuel
                      have e1 : ∀ w, (st1.tbl w).pending = (st.tbl w).pending :=
                        fun w => processEdges_rec_chain _
                          (fun a b => ∀ w, (b.tbl w).pending = (a.tbl w).pending)
                          (fun _ _ => rfl) (fun _ _ _ hab hbc w => (hbc w).trans (hab w))
                          (fun _ _ _ _ _ hr w => ea _ _ _ _ _ _ hr w)
                          _ _ _ _ _ _ _ h1 w
                      have e2 : ∀ w, (stc.tbl w).pending = (st1.tbl w).pending :=
                        fun w => processEdges_rec_chain _
                          (fun a b => ∀ w, (b.tbl w).pending = (a.tbl w).pending)
                          (fun _ _ => rfl) (fun _ _ _ hab hbc w => (hbc w).trans (hab w))
                          (fun _ _ _ _ _ hr w => ea _ _ _ _ _ _ hr w)
                          _ _ _ _ _ _ _ hc w
                      exact (e2 v).trans (e1 v)
                    refine ⟨?_, ?_, ?_⟩
                    · unfold pendingKeys
                      rw [commitRow_pending, if_neg (fun hh => hh.2 hb), hpfrz]
                      exact (hinv u).1
                    · rw [commitRow_done, if_pos ⟨rfl, hb⟩]
                      exact nodup_addDone (hinvc u).2.1
                    · intro k hk
                      unfold pendingKeys at hk
                      rw [commitRow_pending, if_neg (fun hh => hh.2 hb), hpfrz] at hk
                      rw [commitRow_done, if_pos ⟨rfl, hb⟩]
                      rw [mem_addDone]
                      rintro (hkd | rfl)
                      · exact (hinvc u).2.2 k (by
                          unfold pendingKeys
                          rw [hpfrz]
                          exact hk) hkd
                      · exact hpend hk
                  · -- buffered path: pk upserted into pending, done untouched
                    have hdfrz : ∀ v, (stc.tbl v).done = (st.tbl v).done := by
                      intro v
                      have ea := createRowIn_done_frame env hb fuel
                      have e1 : ∀ w, (st1.tbl w).done = (st.tbl w).done :=
                        fun w => processEdges_rec_chain _
                          (fun a b => ∀ w, (b.tbl w).done = (a.tbl w).done)
                          (fun _ _ => rfl) (fun _ _ _ hab hbc w => (hbc w).trans (hab w))
                          (fun _ _ _ _ _ hr w => ea _ _ _ _ _ _ hr w)
                          _ _ _ _ _ _ _ h1 w
                      have e2 : ∀ w, (stc.tbl w).done = (st1.tbl w).done :=
                        fun w => processEdges_rec_chain _
                          (fun a b => ∀ w, (b.tbl w).done = (a.tbl w).done)
                          (fun _ _ => rfl) (fun _ _ _ hab hbc w => (hbc w).trans (hab w))
                          (fun _ _ _ _ _ hr w => ea _ _ _ _ _ _ hr w)
                          _ _ _ _ _ _ _ hc w
                      exact (e2 v).trans (e1 v)
                    refine ⟨?_, ?_, ?_⟩
                    · unfold pendingKeys
                      rw [commitRow_pending, if_pos ⟨rfl, hb⟩]
                      exact nodup_upsert_map_fst (hinvc u).1
                    · rw [commitRow_done, if_neg (fun hh => hb hh.2)]
                      exact (hinvc u).2.1
                    · intro k hk
                      unfold pendingKeys at hk
                      rw [commitRow_pending, if_pos ⟨rfl, hb⟩] at hk
                      rw [commitRow_done, if_neg (fun hh => hb hh.2), hdfrz]
                      rcases mem_upsert_map_fst.mp hk with hk' | rfl
                      · intro hkd
                        exact (hinvc u).2.2 k hk' (by rw [hdfrz u]; exact hkd)
                      · exact hdone
                · refine TblInv_congr ?_ ?_ (hinvc u)
                  · rw [commitRow_pending, if_neg (fun hh => hu hh.1)]
                  · rw [commitRow_done, if_neg (fun hh => hu hh.1)]
          · cases hcom
            exact hinv

theorem createRowIn_exists_noop (env : Env) (fuel : ℕ) (row : Row) (t : TableId)
    (st : EngineState)
    (hhash : Value.hashableList (pkTuple row (env.schema t).pk) = true)
    (hmem : pkTuple row (env.schema t).pk ∈ (st.tbl t).pending.map Prod.fst ∨
      pkTuple row (env.schema t).pk ∈ (st.tbl t).done) :
    createRowIn env (fuel + 1) row t false st = some (st, []) := by
  rw [createRowIn]
  simp only [hhash, Bool.not_true, Bool.false_eq_true, if_false]
  rw [if_pos ⟨hmem, trivial⟩]

theorem flushTable_pending_empty (o : FlushOracle) (t : TableId) (ts : TblState)
    (rows : List Row) : (flushTable o t ts rows).1.pending = [] ∨
      (flushTable o t ts rows).1.pending = ts.pending := by
  unfold flushTable
  by_cases hp : ts.pending = []
  · rw [if_pos hp]
    exact Or.inl hp
  · rw [if_neg hp]
    exact Or.inl rfl

theorem flushTable_pending_nil (o : FlushOracle) (t : TableId) (ts : TblState)
    (rows : List Row) : (flushTable o t ts rows).1.pending = [] := by
  unfold flushTable
  by_cases hp : ts.pending = []
  · rw [if_pos hp]
    exact hp
  · rw [if_neg hp]

theorem flushTable_done_mem (o : FlushOracle) (t : TableId) (ts : TblState)
    (rows : List Row) (k : List Value) :
    k ∈ (flushTable o t ts rows).1.done ↔
      k ∈ ts.done ∨ k ∈ ts.pending.map Prod.fst := by
  unfold flushTable
  by_cases hp : ts.pending = []
  · rw [if_pos hp]
    simp [hp]
  · rw [if_neg hp]
    exact mem_unionDone

theorem flushTable_rows_eq (o : FlushOracle) (t : TableId) (ts : TblState)
    (rows : List Row) (hne : ts.pending ≠ []) :
    (flushTable o t ts rows).2 = rows ++
      (if o.batchOk t then ts.pending.map Prod.snd
        else (ts.pending.map Prod.snd).filter (o.rowOk t)) := by
  unfold flushTable
  rw [if_neg hne]

theorem flushTable_inv (o : FlushOracle) (t : TableId) (ts : TblState)
    (rows : List Row) (h : TblInv ts) : TblInv (flushTable o t ts rows).1 := by
  unfold flushTable
  by_cases hp : ts.pending = []
  · rwa [if_pos hp]
  · rw [if_neg hp]
    exact ⟨by simp [pendingKeys], nodup_unionDone h.2.1, by simp [pendingKeys]⟩

/-- `Inv` holds for the all-empty engine state. -/
theorem inv_stEmpty : Inv stEmpty :=
  fun _ => ⟨List.nodup_nil, List.nodup_nil, by simp [stEmpty, TblState.empty, pendingKeys,
    TblState.empty]⟩

/-- `Inv` holds for the one-buffered-row fixture state. -/
theorem inv_stPendW : Inv stPendW := by
  intro t
  by_cases h : t = "child" <;>
    simp [stPendW, TblState.empty, TblInv, pendingKeys, h]

/-- C2: the unique-key invariant of every target table's `done ∪ pending` —
pending keys distinct, done distinct, and the two disjoint — is preserved by
`create_row_in` (hence by `insert_one`, which it guards with the
`row_exists` check) and by `flush`, so it holds throughout a run. -/
theorem done_pending_unique_key_invariant :
    (∀ env fuel row t pr st, Inv st → OptInv (createRowIn env fuel row t pr st)) ∧
    (∀ o st, Inv st → Inv (flush o st)) := by
  constructor
  · intro env fuel row t pr st hinv
    rcases h : createRowIn env fuel row t pr st with _ | ⟨st', tr⟩
    · trivial
    · exact createRowIn_inv env fuel row t pr st st' tr hinv h
  · intro o st hinv t
    exact flushTable_inv o t (st.tbl t) (st.targetRows t) (hinv t)

/-- Witness for `done_pending_unique_key_invariant` at concrete states. -/
theorem done_pending_unique_key_invariant_witness :
    OptInv (createRowIn envW 2 childRowW "child" false stEmpty) ∧
    Inv (flush oracleFailW stPendW) :=
  ⟨done_pending_unique_key_invariant.1 envW 2 childRowW "child" false stEmpty inv_stEmpty,
    done_pending_unique_key_invariant.2 oracleFailW stPendW inv_stPendW⟩

/-- C3: a non-prioritized `create_row_in` call whose row's pk tuple is
already in the target table's `pending` or `done` returns immediately with
the entire engine state unchanged (the very same state: no table's queues,
buffers, counters, or committed rows are modified) and an empty admission
trace (no insert is issued). -/
theorem nonprioritized_readmission_idempotent (env : Env) (fuel : ℕ) (row : Row)
    (t : TableId) (st : EngineState)
    (hhash : Value.hashableList (pkTuple row (env.schema t).pk) = true)
    (hmem : pkTuple row (env.schema t).pk ∈ (st.tbl t).pending.map Prod.fst ∨
      pkTuple row (env.schema t).pk ∈ (st.tbl t).done) :
    createRowIn env (fuel + 1) row t false st = some (st, []) :=
  createRowIn_exists_noop env fuel row t st hhash hmem

/-- Witness for `nonprioritized_readmission_idempotent` at a state holding
the row's pk in `pending`. -/
theorem nonprioritized_readmission_idempotent_witness :
    Value.hashableList (pkTuple childRowW (envW.schema "child").pk) = true ∧
    pkTuple childRowW (envW.schema "child").pk ∈
      (stPendW.tbl "child").pending.map Prod.fst ∧
    createRowIn envW 1 childRowW "child" false stPendW = some (stPendW, []) :=
  ⟨by decide, by decide,
    nonprioritized_readmission_idempotent envW 0 childRowW "child" stPendW
      (by decide) (Or.inl (by decide))⟩

/-- C8: `flush` empties every target table's `pending` and moves exactly the
buffered pks into `done`; when the one-batch insert fails the per-row
fallback inserts exactly the buffered rows that individually succeed
(skipping failures and continuing); and the scheduler's post-loop step runs
a final flush whenever `buffer > 0`, so after it every `pending` is empty. -/
theorem flush_clears_pending_with_fallback :
    (∀ o st t,
      ((flush o st).tbl t).pending = [] ∧
      (∀ k, k ∈ ((flush o st).tbl t).done ↔
        k ∈ (st.tbl t).done ∨ k ∈ (st.tbl t).pending.map Prod.fst) ∧
      ((st.tbl t).pending ≠ [] → (flush o st).targetRows t =
        st.targetRows t ++
          (if o.batchOk t then (st.tbl t).pending.map Prod.snd
            else ((st.tbl t).pending.map Prod.snd).filter (o.rowOk t)))) ∧
    (∀ o (buffer : ℕ) st, 0 < buffer →
      ∀ t, ((schedulerEpilogue o buffer st).tbl t).pending = []) := by
  constructor
  · intro o st t
    exact ⟨flushTable_pending_nil o t _ _, fun k => flushTable_done_mem o t _ _ k,
      fun hne => flushTable_rows_eq o t _ _ hne⟩
  · intro o buffer st hb t
    unfold schedulerEpilogue
    rw [if_pos hb]
    exact flushTable_pending_nil o t _ _

/-- Witness for `flush_clears_pending_with_fallback` at a state with one
buffered row and a failing target database. -/
theorem flush_clears_pending_with_fallback_witness :
    ((flush oracleFailW stPendW).tbl "child").pending = [] ∧
    (flush oracleFailW stPendW).targetRows "child" =
      stPendW.targetRows "child" ++
        (if oracleFailW.batchOk "child" then (stPendW.tbl "child").pending.map Prod.snd
          else ((stPendW.tbl "child").pending.map Prod.snd).filter
            (oracleFailW.rowOk "child")) ∧
    ((schedulerEpilogue oracleFailW 1 stPendW).tbl "child").pending = [] :=
  ⟨(flush_clears_pending_with_fallback.1 oracleFailW stPendW "child").1,
    (flush_clears_pending_with_fallback.1 oracleFailW stPendW "child").2.2 (by decide),
    flush_clears_pending_with_fallback.2 oracleFailW 1 stPendW (by decide) "child"⟩

/-- C9 (code bug): `create_row_in` builds the pk tuple at `subsetter.py:362`
with no recursive list-to-tuple conversion, so for a row with an array value
in a pk column (the repository's own pg-types test fixture: `moody_cat` has
no declared pk, making all columns — including the `mood[]` array — the
effective key) the key is unhashable and the `pks in pending` membership
test raises; the spec's claimed conversion would have produced a hashable
key. -/
theorem pk_tuple_unhashable_at_array_row :
    pkTuple moodyRow moodyPk =
      [Value.str "Buzz", Value.str "hungry",
        Value.arr [Value.str "hungry", Value.str "grumpy"]] ∧
    Value.hashableList (pkTuple moodyRow moodyPk) = false ∧
    createRowIn moodyEnv 1 moodyRow "moody_cat" false stEmpty = none ∧
    specPkTuple moodyRow moodyPk =
      [Value.str "Buzz", Value.str "hungry",
        Value.tup [Value.str "hungry", Value.str "grumpy"]] ∧
    Value.hashableList (specPkTuple moodyRow moodyPk) = true :=
  ⟨rfl, rfl, rfl, rfl, rfl⟩

/-- C10: when the batch insert fails and a row's individual fallback insert
also fails, the row is skipped (not among the rows committed to the target
database) but its pk tuple is nevertheless moved into `done` and removed from
`pending`; any later non-prioritized admission of a row with that pk is then
a silent no-op, so the failed row is never re-attempted for the rest of the
run. -/
theorem flush_failed_row_still_done (o : FlushOracle) (t : TableId) (ts : TblState)
    (rows : List Row) (pks : List Value) (row : Row)
    (hb : o.batchOk t = false) (hmem : (pks, row) ∈ ts.pending)
    (hrow : o.rowOk t row = false) :
    pks ∈ (flushTable o t ts rows).1.done ∧
    (flushTable o t ts rows).1.pending = [] ∧
    (flushTable o t ts rows).2 = rows ++ (ts.pending.map Prod.snd).filter (o.rowOk t) ∧
    row ∉ (ts.pending.map Prod.snd).filter (o.rowOk t) ∧
    (∀ (env : Env) (fuel : ℕ) (st : EngineState) (row' : Row),
      Value.hashableList (pkTuple row' (env.schema t).pk) = true →
      pkTuple row' (env.schema t).pk = pks →
      pks ∈ (st.tbl t).done →
      createRowIn env (fuel + 1) row' t false st = some (st, [])) := by
  have hne : ts.pending ≠ [] := List.ne_nil_of_mem hmem
  refine ⟨?_, flushTable_pending_nil o t _ _, ?_, ?_, ?_⟩
  · exact (flushTable_done_mem o t ts rows pks).mpr
      (Or.inr (List.mem_map.mpr ⟨(pks, row), hmem, rfl⟩))
  · rw [flushTable_rows_eq o t ts rows hne, if_neg (by simp [hb])]
  · intro hr
    rcases List.mem_filter.mp hr with ⟨-, hok⟩
    rw [hrow] at hok
    cases hok
  · intro env fuel st row' hh hpkeq hmemd
    exact createRowIn_exists_noop env fuel row' t st hh (Or.inr (hpkeq ▸ hmemd))

/-- Witness for `flush_failed_row_still_done` at the failing-oracle
fixture. -/
theorem flush_failed_row_still_done_witness :
    [Value.int 1] ∈ (flushTable oracleFailW "child" tsPendW []).1.done ∧
    (flushTable oracleFailW "child" tsPendW []).1.pending = [] ∧
    childRowW ∉ (tsPendW.pending.map Prod.snd).filter (oracleFailW.rowOk "child") := by
  have h := flush_failed_row_still_done oracleFailW "child" tsPendW []
    [Value.int 1] childRowW (by decide) (by decide) (by decide)
  exact ⟨h.1, h.2.1, h.2.2.2.1⟩

end Subsetter
